import Mathlib

/-!
Verification of the INJ-epaper-node transaction pipeline.

The development shallowly embeds the JavaScript sources:
the experiment loop with its retry/backoff policy and CSV logging
(`exec loop` script), the cross-process broadcast worker
(`send_set_value.js`), and the confirmation poller (`exec_set_value.js`).
External effects (the SDK broadcast call, `JSON.parse`, `Date.now`,
clocks) are parameters of the model; everything else is translated
directly from the source.
-/

namespace INJEpaper

/-- Case-insensitive-ready infix search over character lists:
`hasInfix hay pat` is true when `pat` occurs contiguously in `hay`.
Used to embed the JavaScript regex test on error messages. -/
def hasInfix (hay pat : List Char) : Bool :=
  match hay with
  | [] => pat.isEmpty
  | _ :: t => pat.isPrefixOf hay || hasInfix t pat

/-- Embedding of the classification test
`/sequence|account sequence|incorrect/i.test(errMsg)` from the retry
loop: lower-case the message (the `i` flag; the alternatives are already
lower case) and look for any of the three alternatives as a substring. -/
def isSeqErr (m : String) : Bool :=
  let lm := m.data.map Char.toLower
  hasInfix lm ("sequence".data) || hasInfix lm ("account sequence".data) ||
    hasInfix lm ("incorrect".data)

/-- The two failure kinds distinguished by the retry loop. -/
inductive ErrKind where
  | transientSequence
  | otherTransient
  deriving DecidableEq, Repr

/-- Classification of a failure message, as performed by the retry loop. -/
def classify (m : String) : ErrKind :=
  if isSeqErr m then ErrKind.transientSequence else ErrKind.otherTransient

/-- Backoff formula per failure kind: `1200 * attempt` for sequence
errors, `400 * attempt` otherwise. -/
def kindBackoff (k : ErrKind) (attempt : Nat) : Nat :=
  match k with
  | ErrKind.transientSequence => 1200 * attempt
  | ErrKind.otherTransient => 400 * attempt

/-- The delay the catch block sleeps after a failed attempt:
`await sleep(1200 * attempt)` when the message matches the sequence
pattern, `await sleep(400 * attempt)` otherwise. -/
def backoffDelay (m : String) (attempt : Nat) : Nat :=
  if isSeqErr m then 1200 * attempt else 400 * attempt

/-- Broadcast response shape as consumed by the scripts.  The backend's
result shape varies, so both `txhash` and `txHash` spellings may or may
not be present; all fields are optional strings. -/
structure BRes where
  txhash : Option String
  txHash : Option String
  code : Option String
  height : Option String
  gasWanted : Option String
  gasUsed : Option String
  timestamp : Option String
  deriving DecidableEq, Repr

/-- Outcome of one `broadcaster.broadcast` call: either a response
object or a thrown error with its message. -/
inductive AttemptOutcome where
  | ok (r : BRes)
  | err (m : String)
  deriving DecidableEq, Repr

/-- Observable events of the retry loop: a broadcast attempt, or a
backoff sleep of the given number of milliseconds. -/
inductive Ev where
  | attempt (a : Nat)
  | sleep (ms : Nat)
  deriving DecidableEq, Repr

/-- The retry loop `for (attempt = 1; attempt <= 3; attempt++)` of the
experiment script, with the remaining iteration budget made explicit as
fuel (`retryRun` starts it at 3).  State carried: the current `errMsg`.
Returns the final `res`, the final `errMsg`, and the event trace. -/
def retryGo (outcomes : Nat → AttemptOutcome) :
    Nat → Nat → String → Option BRes × String × List Ev
  | 0, _, e => (none, e, [])
  | fuel + 1, a, _ =>
    match outcomes a with
    | AttemptOutcome.ok r => (some r, "", [Ev.attempt a])
    | AttemptOutcome.err m =>
      let p := retryGo outcomes fuel (a + 1) m
      (p.1, p.2.1, Ev.attempt a :: Ev.sleep (backoffDelay m a) :: p.2.2)

/-- One trial's retry loop: attempts start at 1, at most 3 of them,
`errMsg` initially empty. -/
def retryRun (outcomes : Nat → AttemptOutcome) :
    Option BRes × String × List Ev :=
  retryGo outcomes 3 1 ""

/-- The event trace of one trial's retry loop. -/
def retryEvents (outcomes : Nat → AttemptOutcome) : List Ev :=
  (retryRun outcomes).2.2

/-- Timed version of the retry loop: the clock `t` advances by the
attempt's duration `dur a` on each broadcast call and by the backoff
delay on each sleep.  `t0` is read before the loop and `t1` after it,
exactly as in the source; the returned clock is `t1`. -/
def retryTimed (outcomes : Nat → AttemptOutcome) (dur : Nat → Nat) :
    Nat → Nat → Nat → Option BRes × Nat
  | 0, _, t => (none, t)
  | fuel + 1, a, t =>
    match outcomes a with
    | AttemptOutcome.ok r => (some r, t + dur a)
    | AttemptOutcome.err m =>
      retryTimed outcomes dur fuel (a + 1) (t + dur a + backoffDelay m a)

/-- Duration contributed by one retry-loop event: the broadcast call's
own latency for an attempt, the slept milliseconds for a backoff. -/
def evDuration (dur : Nat → Nat) : Ev → Nat
  | Ev.attempt a => dur a
  | Ev.sleep ms => ms

/-- Trace description following the specification's words for the retry
policy: attempt 1 first; on failure with message `m`, sleep
`backoffDelay m a` and retry, up to 3 attempts; stop at the first
success; after three failures the result is `none` with the last
message.  Used to compare the code's loop against the claimed policy. -/
def retryClaimedTrace (outcomes : Nat → AttemptOutcome) :
    Option BRes × String × List Ev :=
  match outcomes 1 with
  | AttemptOutcome.ok r => (some r, "", [Ev.attempt 1])
  | AttemptOutcome.err m1 =>
    match outcomes 2 with
    | AttemptOutcome.ok r =>
      (some r, "",
        [Ev.attempt 1, Ev.sleep (backoffDelay m1 1), Ev.attempt 2])
    | AttemptOutcome.err m2 =>
      match outcomes 3 with
      | AttemptOutcome.ok r =>
        (some r, "",
          [Ev.attempt 1, Ev.sleep (backoffDelay m1 1), Ev.attempt 2,
            Ev.sleep (backoffDelay m2 2), Ev.attempt 3])
      | AttemptOutcome.err m3 =>
        (none, m3,
          [Ev.attempt 1, Ev.sleep (backoffDelay m1 1), Ev.attempt 2,
            Ev.sleep (backoffDelay m2 2), Ev.attempt 3,
            Ev.sleep (backoffDelay m3 3)])

/-- A run in which every broadcast attempt throws the same message. -/
def failAll : Nat → AttemptOutcome := fun _ => AttemptOutcome.err ("boom")

/-- Number of attempt events in a retry trace. -/
def attemptCount (evs : List Ev) : Nat :=
  (evs.filter (fun e => match e with | Ev.attempt _ => true | _ => false)).length

/-- A run whose first attempt throws and whose later attempts succeed. -/
def failThenOk : Nat → AttemptOutcome := fun a =>
  if a = 1 then AttemptOutcome.err ("boom")
  else AttemptOutcome.ok (BRes.mk (some ("ABC123")) none none none none none none)

/-- Concrete attempt durations for the timed countercase: the failed
first call takes 100 ms, the successful second call 50 ms. -/
def exDur : Nat → Nat := fun a => if a = 1 then 100 else 50

/-- C1 counterexample.  When all three attempts fail, the trace emitted
by the retry loop still contains a backoff sleep (of `1200 * 3` ms here,
since the message is classified as OtherTransientError at `400 * 3`;
with the constant message `boom` the delay is `400 * 3 = 1200`)
immediately after the 3rd and final attempt, refuting the claim that no
delay follows the 3rd attempt. -/
theorem retry_sleep_follows_final_attempt :
    (retryEvents failAll)[4]? = some (Ev.attempt 3) ∧
      (retryEvents failAll)[5]? = some (Ev.sleep 1200) := by
  constructor <;> rfl

/-- C1 (amended).  For every sequence of attempt outcomes, the retry
loop issues at most 3 attempts, sleeps `1200 * a` ms (sequence errors)
or `400 * a` ms (other errors) after every failed attempt `a` —
including the 3rd and final one — stops immediately at the first
success, and after three failures ends with `res = none` carrying the
last error message.  Stated as: the loop's result and trace equal the
claimed trace `retryClaimedTrace`, and every trace has at most 3
attempt events. -/
theorem retry_policy_amended (outcomes : Nat → AttemptOutcome) :
    retryRun outcomes = retryClaimedTrace outcomes ∧
      attemptCount (retryEvents outcomes) ≤ 3 := by
  have h : retryRun outcomes = retryClaimedTrace outcomes := by
    cases h1 : outcomes 1 <;> cases h2 : outcomes 2 <;> cases h3 : outcomes 3 <;>
      simp [retryRun, retryGo, retryClaimedTrace, h1, h2, h3]
  refine ⟨h, ?_⟩
  unfold retryEvents
  rw [h]
  unfold retryClaimedTrace
  cases h1 : outcomes 1 <;> cases h2 : outcomes 2 <;> cases h3 : outcomes 3 <;>
    simp [attemptCount, List.filter]

/-- C8.  Failure classification is a deterministic pure function of the
error message: equal messages yield equal classifications, the backoff
the loop actually sleeps factors through the classification
(`backoffDelay m a = kindBackoff (classify m) a`), and hence equal
messages yield equal backoff for every attempt number. -/
theorem classify_deterministic (m1 m2 : String) (a : Nat) (h : m1 = m2) :
    classify m1 = classify m2 ∧
      backoffDelay m1 a = kindBackoff (classify m1) a ∧
      backoffDelay m1 a = backoffDelay m2 a := by
  subst h
  refine ⟨rfl, ?_, rfl⟩
  unfold backoffDelay kindBackoff classify
  by_cases hs : isSeqErr m1 <;> simp [hs]

/-- Witness for C8 at a concrete message and attempt number. -/
theorem classify_deterministic_witness :
    classify ("account sequence mismatch") = classify ("account sequence mismatch") ∧
      backoffDelay ("account sequence mismatch") 2 =
        kindBackoff (classify ("account sequence mismatch")) 2 ∧
      backoffDelay ("account sequence mismatch") 2 =
        backoffDelay ("account sequence mismatch") 2 :=
  classify_deterministic ("account sequence mismatch") ("account sequence mismatch") 2 rfl

/-- C10.  The clock is read before the first attempt and again after
the retry loop ends, so the recorded elapsed time equals the sum of
every executed attempt's duration plus every backoff sleep — the whole
retry loop, not just the successful call.  The closed conjuncts
exhibit a failure-then-success run where the measured elapsed time is
the failed call plus its backoff plus the successful call, strictly
more than the successful call alone. -/
theorem broadcast_ms_spans_retry_loop
    (outcomes : Nat → AttemptOutcome) (dur : Nat → Nat) (t0 : Nat) :
    (retryTimed outcomes dur 3 1 t0).2 =
        t0 + ((retryEvents outcomes).map (evDuration dur)).sum ∧
      (retryTimed failThenOk exDur 3 1 0).2 =
        exDur 1 + backoffDelay ("boom") 1 + exDur 2 ∧
      (retryTimed failThenOk exDur 3 1 0).2 ≠ exDur 2 := by
  refine ⟨?_, by decide, by decide⟩
  unfold retryEvents retryRun
  cases h1 : outcomes 1 <;> cases h2 : outcomes 2 <;> cases h3 : outcomes 3 <;>
    simp [retryTimed, retryGo, h1, h2, h3, evDuration] <;> ring

/-- Observable events of the confirmation loop: a read-only contract
state query (with its iteration index), or a sleep of the given
milliseconds.  No mutating event exists: the loop only ever queries. -/
inductive PEv where
  | query (i : Nat)
  | sleep (ms : Nat)
  deriving DecidableEq, Repr

/-- Number of state queries in a poll trace. -/
def pollQueryCount (evs : List PEv) : Nat :=
  (evs.filter (fun e => match e with | PEv.query _ => true | _ => false)).length

/-- The confirmation loop `for (i = 0; i < 45; i++)` of
`exec_set_value`: query the contract (`q i` is the `value` field of the
`get_value` response at iteration `i`, `none` when absent), return
confirmed on the first response equal to the expected value, otherwise
sleep 2000 ms and continue; after the budget is exhausted report not
confirmed.  Fuel counts the remaining iterations. -/
def pollGo (q : Nat → Option String) (e : String) :
    Nat → Nat → Bool × List PEv
  | 0, _ => (false, [])
  | fuel + 1, i =>
    if q i = some e then (true, [PEv.query i])
    else
      let p := pollGo q e fuel (i + 1)
      (p.1, PEv.query i :: PEv.sleep 2000 :: p.2)

/-- The whole confirmation poll: 45 iterations starting at index 0. -/
def pollRun (q : Nat → Option String) (e : String) : Bool × List PEv :=
  pollGo q e 45 0

theorem pollQueryCount_nil : pollQueryCount [] = 0 := rfl

theorem pollQueryCount_single (i : Nat) : pollQueryCount [PEv.query i] = 1 := rfl

theorem pollQueryCount_cons (i : Nat) (l : List PEv) :
    pollQueryCount (PEv.query i :: PEv.sleep 2000 :: l) = pollQueryCount l + 1 := rfl

theorem pollGo_fst_iff (q : Nat → Option String) (e : String) :
    ∀ fuel i, (pollGo q e fuel i).1 = true ↔ ∃ k, k < fuel ∧ q (i + k) = some e := by
  intro fuel
  induction fuel with
  | zero => intro i; simp [pollGo]
  | succ n ih =>
    intro i
    by_cases h : q i = some e
    · simp only [pollGo, if_pos h]
      constructor
      · intro _; exact ⟨0, Nat.succ_pos n, by simpa using h⟩
      · intro _; trivial
    · simp only [pollGo, if_neg h]
      rw [ih (i + 1)]
      constructor
      · rintro ⟨k, hk, hq⟩
        exact ⟨k + 1, by omega, by rw [show i + (k + 1) = i + 1 + k by omega]; exact hq⟩
      · rintro ⟨k, hk, hq⟩
        match k with
        | 0 => exact absurd (by simpa using hq) h
        | k + 1 =>
          exact ⟨k, by omega, by rw [show i + 1 + k = i + (k + 1) by omega]; exact hq⟩

theorem pollGo_count_le (q : Nat → Option String) (e : String) :
    ∀ fuel i, pollQueryCount (pollGo q e fuel i).2 ≤ fuel := by
  intro fuel
  induction fuel with
  | zero => intro i; simp [pollGo, pollQueryCount]
  | succ n ih =>
    intro i
    by_cases h : q i = some e
    · simp [pollGo, if_pos h, pollQueryCount_single]
    · simp only [pollGo, if_neg h]
      have := ih (i + 1)
      rw [pollQueryCount_cons]
      omega

theorem pollGo_first_match (q : Nat → Option String) (e : String) :
    ∀ fuel i k, k < fuel → q (i + k) = some e →
      (∀ j, j < k → q (i + j) ≠ some e) →
      (pollGo q e fuel i).1 = true ∧
        pollQueryCount (pollGo q e fuel i).2 = k + 1 := by
  intro fuel
  induction fuel with
  | zero => intro i k hk; omega
  | succ n ih =>
    intro i k hk hq hmin
    by_cases h : q i = some e
    · have hk0 : k = 0 := by
        by_contra hne
        exact hmin 0 (by omega) (by simpa using h)
      subst hk0
      simp [pollGo, if_pos h, pollQueryCount, List.filter]
    · have hkpos : k ≠ 0 := by
        intro h0; subst h0; exact h (by simpa using hq)
      obtain ⟨k', rfl⟩ : ∃ k', k = k' + 1 := ⟨k - 1, by omega⟩
      have hrec := ih (i + 1) k' (by omega)
        (by rw [show i + 1 + k' = i + (k' + 1) by omega]; exact hq)
        (by
          intro j hj
          rw [show i + 1 + j = i + (j + 1) by omega]
          exact hmin (j + 1) (by omega))
      simp only [pollGo, if_neg h]
      refine ⟨hrec.1, ?_⟩
      have hc := hrec.2
      rw [pollQueryCount_cons]
      omega

theorem pollGo_no_match (q : Nat → Option String) (e : String) :
    ∀ fuel i, (∀ k, k < fuel → q (i + k) ≠ some e) →
      (pollGo q e fuel i).1 = false ∧
        pollQueryCount (pollGo q e fuel i).2 = fuel := by
  intro fuel
  induction fuel with
  | zero => intro i _; simp [pollGo, pollQueryCount]
  | succ n ih =>
    intro i hno
    have h : q i ≠ some e := by simpa using hno 0 (by omega)
    have hrec := ih (i + 1) (by
      intro k hk
      rw [show i + 1 + k = i + (k + 1) by omega]
      exact hno (k + 1) (by omega))
    simp only [pollGo, if_neg h]
    refine ⟨hrec.1, ?_⟩
    have hc := hrec.2
    rw [pollQueryCount_cons]
    omega

theorem pollGo_events_shape (q : Nat → Option String) (e : String) :
    ∀ fuel i ev, ev ∈ (pollGo q e fuel i).2 →
      (∃ j, ev = PEv.query j) ∨ ev = PEv.sleep 2000 := by
  intro fuel
  induction fuel with
  | zero => intro i ev h; simp [pollGo] at h
  | succ n ih =>
    intro i ev h
    by_cases hq : q i = some e
    · simp [pollGo, if_pos hq] at h
      exact Or.inl ⟨i, h⟩
    · simp only [pollGo, if_neg hq, List.mem_cons] at h
      rcases h with h | h | h
      · exact Or.inl ⟨i, h⟩
      · exact Or.inr h
      · exact ih (i + 1) ev h

/-- C7.  The confirmation poller issues at most 45 read-only queries,
confirms exactly when some query within the budget observes the
expected value, confirms on the first such query (having issued
`k + 1` queries when the first match is at index `k`), reports not
confirmed after exactly 45 queries when the value never appears
(returning normally rather than throwing — the function is total), and
its trace consists solely of read-only queries and 2000 ms sleeps. -/
theorem poll_confirmation_budget (q : Nat → Option String) (e : String) :
    pollQueryCount (pollRun q e).2 ≤ 45 ∧
      ((pollRun q e).1 = true ↔ ∃ k, k < 45 ∧ q k = some e) ∧
      (∀ k, k < 45 → q k = some e → (∀ j, j < k → q j ≠ some e) →
        (pollRun q e).1 = true ∧ pollQueryCount (pollRun q e).2 = k + 1) ∧
      ((∀ k, k < 45 → q k ≠ some e) →
        (pollRun q e).1 = false ∧ pollQueryCount (pollRun q e).2 = 45) ∧
      (∀ ev, ev ∈ (pollRun q e).2 →
        (∃ j, ev = PEv.query j) ∨ ev = PEv.sleep 2000) := by
  refine ⟨pollGo_count_le q e 45 0, ?_, ?_, ?_, ?_⟩
  · have h := pollGo_fst_iff q e 45 0
    simpa using h
  · intro k hk hq hmin
    have := pollGo_first_match q e 45 0 k hk (by simpa using hq)
      (by intro j hj; simpa using hmin j hj)
    exact this
  · intro hno
    exact pollGo_no_match q e 45 0 (by intro k hk; simpa using hno k hk)
  · intro ev hev
    exact pollGo_events_shape q e 45 0 ev hev

/-- Concrete query stream for the C7 witness: the value appears at the
third query (index 2). -/
def exQ : Nat → Option String := fun k => if k = 2 then some ("v") else none

/-- Witness for C7: with the expected value first observed at index 2,
the poller confirms after exactly 3 queries. -/
theorem poll_confirmation_budget_witness :
    (pollRun exQ ("v")).1 = true ∧ pollQueryCount (pollRun exQ ("v")).2 = 3 :=
  (poll_confirmation_budget exQ ("v")).2.2.1 2 (by decide) (by decide) (by decide)

/-- Embedding of `s.replaceAll('"', '""')`: double every double-quote. -/
def escQuote : List Char → List Char
  | [] => []
  | c :: cs => if c = '"' then '"' :: '"' :: escQuote cs else c :: escQuote cs

/-- The character class of the regex `/[",\n]/` in the `esc` function. -/
def isCsvSpecial (c : Char) : Bool := c = '"' || c = ',' || c = '\n'

/-- Embedding of the CSV escape function `esc`:
`String(v ?? "")`, then wrap in double quotes with internal quotes
doubled when the regex `/[",\n]/` matches, otherwise return unchanged.
`none` models a null/undefined field. -/
def esc (v : Option String) : String :=
  let s := v.getD ("")
  if s.data.any isCsvSpecial then String.mk ('"' :: (escQuote s.data ++ ['"']))
  else s

/-- Modelled from the spec: the quoted-field body of an RFC-4180-style
CSV parser.  Input is the character stream after the opening quote;
`""` denotes a literal quote, a lone closing quote ends the field, and
the field must end exactly at the closing quote. -/
def unQuote : List Char → Option (List Char)
  | [] => none
  | ['"'] => some []
  | '"' :: '"' :: cs => (unQuote cs).map (fun r => '"' :: r)
  | '"' :: _ :: _ => none
  | c :: cs => (unQuote cs).map (fun r => c :: r)

/-- Modelled from the spec: a standard (RFC-4180-style) CSV field
parser for a single complete field, over characters.  A field starting
with a double quote is a quoted field (internal `""` collapses to
`"`); any other field is taken verbatim and may not contain a comma,
quote or newline. -/
def parseFieldL : List Char → Option (List Char)
  | '"' :: cs => unQuote cs
  | cs => if cs.any isCsvSpecial then none else some cs

/-- `parseFieldL` lifted to strings. -/
def parseField (s : String) : Option String :=
  (parseFieldL s.data).map (fun r => String.mk r)

theorem escQuote_length (l : List Char) : l.length ≤ (escQuote l).length := by
  induction l with
  | nil => simp [escQuote]
  | cons c cs ih =>
    by_cases hc : c = '"' <;> simp [escQuote, hc] <;> omega

theorem unQuote_escQuote (l : List Char) :
    unQuote (escQuote l ++ ['"']) = some l := by
  induction l with
  | nil => rfl
  | cons c cs ih =>
    by_cases hc : c = '"'
    · subst hc
      simp [escQuote, unQuote, ih]
    · simp [escQuote, hc, unQuote, ih]

/-- C6.  The CSV escaping function quotes (wrapping in double quotes
and doubling internal quotes) exactly those values containing a comma,
double-quote or newline; leaves every other value unchanged; sends a
null/undefined field to the empty field; and an RFC-4180-style field
parse of the escaped output reproduces the original string exactly. -/
theorem csv_esc_correct :
    esc none = "" ∧
      (∀ s : String,
        ((∃ c, c ∈ s.data ∧ (c = ',' ∨ c = '"' ∨ c = '\n')) ↔
          (esc (some s)).data = '"' :: (escQuote s.data ++ ['"']))) ∧
      (∀ s : String,
        ((∀ c, c ∈ s.data → ¬(c = ',' ∨ c = '"' ∨ c = '\n')) ↔
          esc (some s) = s)) ∧
      (∀ s : String, parseField (esc (some s)) = some s) := by
  have hchar : ∀ c : Char, isCsvSpecial c = true ↔ (c = ',' ∨ c = '"' ∨ c = '\n') := by
    intro c
    simp [isCsvSpecial]
    tauto
  have hany : ∀ s : String,
      s.data.any isCsvSpecial = true ↔
        ∃ c, c ∈ s.data ∧ (c = ',' ∨ c = '"' ∨ c = '\n') := by
    intro s
    rw [List.any_eq_true]
    constructor
    · rintro ⟨c, hc, hp⟩; exact ⟨c, hc, (hchar c).mp hp⟩
    · rintro ⟨c, hc, hp⟩; exact ⟨c, hc, (hchar c).mpr hp⟩
  have hlen : ∀ s : String,
      s.data ≠ '"' :: (escQuote s.data ++ ['"']) := by
    intro s h
    have h1 := escQuote_length s.data
    have h2 := congrArg List.length h
    simp only [List.length_cons, List.length_append, List.length_singleton] at h2
    omega
  refine ⟨rfl, ?_, ?_, ?_⟩
  · intro s
    constructor
    · intro h
      have : s.data.any isCsvSpecial = true := (hany s).mpr h
      simp [esc, this]
    · intro h
      by_cases hp : s.data.any isCsvSpecial = true
      · exact (hany s).mp hp
      · exfalso
        simp [esc, hp] at h
        exact hlen s h
  · intro s
    constructor
    · intro h
      have hp : s.data.any isCsvSpecial = false := by
        rw [Bool.eq_false_iff]
        intro hc
        obtain ⟨c, hc1, hc2⟩ := (hany s).mp hc
        exact h c hc1 hc2
      simp [esc, hp]
    · intro h c hc hbad
      have hp : s.data.any isCsvSpecial = true := (hany s).mpr ⟨c, hc, hbad⟩
      have := congrArg String.data h
      simp [esc, hp] at this
      exact hlen s this.symm
  · intro s
    by_cases hp : s.data.any isCsvSpecial = true
    · have hesc : esc (some s) = String.mk ('"' :: (escQuote s.data ++ ['"'])) := by
        simp [esc, hp]
      rw [hesc]
      unfold parseField
      have hd : (String.mk ('"' :: (escQuote s.data ++ ['"']))).data =
          '"' :: (escQuote s.data ++ ['"']) := rfl
      rw [hd]
      have hpl : parseFieldL ('"' :: (escQuote s.data ++ ['"'])) =
          unQuote (escQuote s.data ++ ['"']) := rfl
      rw [hpl, unQuote_escQuote]
      rfl
    · have hps : s.data.any isCsvSpecial = false := by
        rw [Bool.eq_false_iff]; exact hp
      have hesc : esc (some s) = s := by simp [esc, hps]
      rw [hesc]
      unfold parseField
      have hq : ∀ c, c ∈ s.data → c ≠ '"' := by
        intro c hc he
        have hcs : isCsvSpecial c = true := by
          rw [hchar]; exact Or.inr (Or.inl he)
        have hx := List.any_eq_true.mpr ⟨c, hc, hcs⟩
        rw [hps] at hx
        exact Bool.false_ne_true hx
      have hpl : parseFieldL s.data = some s.data := by
        cases hdata : s.data with
        | nil => rfl
        | cons c t =>
          have hc : c ≠ '"' := hq c (by rw [hdata]; exact List.mem_cons_self c t)
          have hnospec : (c :: t).any isCsvSpecial = false := by
            rw [← hdata]; exact hps
          simp [parseFieldL, hc, hnospec]
      rw [hpl]
      rfl


/-- The decimal digit character for `d` (`0`–`9` for `d < 10`). -/
def digChar (d : Nat) : Char := Char.ofNat (48 + d)

/-- Decimal rendering of a natural number, most significant digit
first, as JavaScript template interpolation renders an integer. -/
def decStr (n : Nat) : List Char :=
  if _ : n < 10 then [digChar n]
  else decStr (n / 10) ++ [digChar (n % 10)]
  termination_by n
  decreasing_by exact Nat.div_lt_self (by omega) (by omega)

/-- Embedding of the per-trial value template
`pi-exp-${Date.now()}-${i}`: the observed timestamp `ts` and the trial
index `i`, both rendered in decimal, joined by hyphens after the fixed
prefix. -/
def mkValue (ts i : Nat) : List Char :=
  ("pi-exp-").data ++ (decStr ts ++ ('-' :: decStr i))

theorem decStr_lt {n : Nat} (h : n < 10) : decStr n = [digChar n] := by
  rw [decStr]
  simp [h]

theorem decStr_ge {n : Nat} (h : ¬ n < 10) :
    decStr n = decStr (n / 10) ++ [digChar (n % 10)] := by
  rw [decStr]
  simp [h]

theorem digChar_inj :
    ∀ d1, d1 < 10 → ∀ d2, d2 < 10 → digChar d1 = digChar d2 → d1 = d2 := by
  decide

theorem decStr_ne_nil (n : Nat) : decStr n ≠ [] := by
  by_cases h : n < 10
  · rw [decStr_lt h]; simp
  · rw [decStr_ge h]; simp

theorem decStr_mem (n : Nat) : ∀ c, c ∈ decStr n → ∃ d, d < 10 ∧ c = digChar d := by
  induction n using Nat.strong_induction_on with
  | _ n ih =>
    intro c hc
    by_cases h : n < 10
    · rw [decStr_lt h] at hc
      simp at hc
      exact ⟨n, h, hc⟩
    · rw [decStr_ge h] at hc
      rw [List.mem_append] at hc
      rcases hc with hc | hc
      · exact ih (n / 10) (Nat.div_lt_self (by omega) (by omega)) c hc
      · simp at hc
        exact ⟨n % 10, Nat.mod_lt n (by omega), hc⟩

theorem decStr_no_dash (n : Nat) : ∀ c, c ∈ decStr n → c ≠ '-' := by
  intro c hc
  obtain ⟨d, hd, rfl⟩ := decStr_mem n c hc
  have hten : ∀ d, d < 10 → digChar d ≠ '-' := by decide
  exact hten d hd

theorem decStr_inj : ∀ a b : Nat, decStr a = decStr b → a = b := by
  intro a
  induction a using Nat.strong_induction_on with
  | _ a ih =>
    intro b h
    by_cases ha : a < 10 <;> by_cases hb : b < 10
    · rw [decStr_lt ha, decStr_lt hb] at h
      simp only [List.cons.injEq, and_true] at h
      exact digChar_inj a ha b hb h
    · rw [decStr_lt ha, decStr_ge hb] at h
      have h2 := congrArg List.length h
      have h4 : 1 ≤ (decStr (b / 10)).length :=
        List.length_pos.mpr (decStr_ne_nil (b / 10))
      simp only [List.length_append, List.length_cons, List.length_nil] at h2
      omega
    · rw [decStr_ge ha, decStr_lt hb] at h
      have h2 := congrArg List.length h
      have h4 : 1 ≤ (decStr (a / 10)).length :=
        List.length_pos.mpr (decStr_ne_nil (a / 10))
      simp only [List.length_append, List.length_cons, List.length_nil] at h2
      omega
    · rw [decStr_ge ha, decStr_ge hb] at h
      have hr := congrArg List.reverse h
      simp only [List.reverse_append, List.reverse_cons, List.reverse_nil,
        List.nil_append, List.singleton_append, List.cons.injEq] at hr
      obtain ⟨h1, h2⟩ := hr
      have hmod : a % 10 = b % 10 :=
        digChar_inj (a % 10) (Nat.mod_lt a (by omega)) (b % 10)
          (Nat.mod_lt b (by omega)) h1
      have hdiv : a / 10 = b / 10 := by
        refine ih (a / 10) (Nat.div_lt_self (by omega) (by omega)) (b / 10) ?_
        have h3 := congrArg List.reverse h2
        simpa using h3
      omega

theorem takeWhile_until_dash (xs rest : List Char)
    (hx : ∀ x, x ∈ xs → x ≠ '-') :
    List.takeWhile (fun c => decide (c ≠ '-')) (xs ++ '-' :: rest) = xs := by
  induction xs with
  | nil => simp [List.takeWhile]
  | cons x t iht =>
    have hxd : x ≠ '-' := hx x (List.mem_cons_self x t)
    simp only [List.cons_append, List.takeWhile]
    rw [decide_eq_true hxd]
    simp only [List.cons.injEq, true_and]
    exact iht (fun y hy => hx y (List.mem_cons_of_mem x hy))

/-- C9.  Distinct trial indices always produce distinct payload value
strings, whatever (per-trial) timestamps `Date.now()` happened to
return: after the last hyphen the value carries the decimal trial
index, decimal digits contain no hyphen, and decimal rendering is
injective.  Payload generation is a total pure function in this
model. -/
theorem payload_values_distinct (ts1 ts2 i j : Nat) (h : i ≠ j) :
    mkValue ts1 i ≠ mkValue ts2 j := by
  intro heq
  apply h
  apply decStr_inj
  have hmid : decStr ts1 ++ ('-' :: decStr i) = decStr ts2 ++ ('-' :: decStr j) := by
    have := heq
    unfold mkValue at this
    exact List.append_cancel_left this
  have hrev := congrArg List.reverse hmid
  simp only [List.reverse_append, List.reverse_cons, List.append_assoc,
    List.singleton_append] at hrev
  have h1 := takeWhile_until_dash (decStr i).reverse ((decStr ts1).reverse)
    (fun x hxm => decStr_no_dash i x (List.mem_reverse.mp hxm))
  have h2 := takeWhile_until_dash (decStr j).reverse ((decStr ts2).reverse)
    (fun x hxm => decStr_no_dash j x (List.mem_reverse.mp hxm))
  have h3 := congrArg (List.takeWhile (fun c => decide (c ≠ '-'))) hrev
  rw [h1, h2] at h3
  exact List.reverse_injective h3

/-- Witness for C9 at concrete timestamps and indices. -/
theorem payload_values_distinct_witness :
    mkValue 1700000000000 1 ≠ mkValue 1700000000000 2 :=
  payload_values_distinct 1700000000000 1700000000000 1 2 (by decide)

/-- JSON value at the `value` key of the worker's input: a string, or
anything of another JSON type (the worker only distinguishes these). -/
inductive JVal where
  | str (s : String)
  | nonStr
  deriving DecidableEq, Repr

/-- Parsed shape of the worker's stdin JSON object: the fields the
worker reads (`value`, `memo`), each possibly absent. -/
structure InputObj where
  value : Option JVal
  memo : Option String
  deriving DecidableEq, Repr

/-- The success document written to stdout by `send_set_value.js`
(minus the measured `broadcast_ms`, an external clock reading). -/
structure OutObj where
  txhash : String
  height : Option String
  code : Option String
  gasWanted : Option String
  gasUsed : Option String
  timestamp : Option String
  sender : String
  contract : String
  valueLen : Nat
  deriving DecidableEq, Repr

/-- The single JSON document the worker emits: `{ok:true, ...}` on the
success path, `{ok:false, error}` from the catch handler. -/
inductive OutDoc where
  | okDoc (o : OutObj)
  | failDoc (error : String)
  deriving DecidableEq, Repr

/-- The `ok` field of the emitted document. -/
def OutDoc.okFlag : OutDoc → Bool
  | OutDoc.okDoc _ => true
  | OutDoc.failDoc _ => false

/-- Embedding of `res.txhash || res.txHash || ""`: first truthy
(present and non-empty) hash field, else the empty string. -/
def pickHash (r : BRes) : String :=
  let a := (r.txhash).getD ("")
  if a ≠ "" then a
  else
    let b := (r.txHash).getD ("")
    if b ≠ "" then b else ""

/-- Construction of the worker's success output object (`out` in
`send_set_value.js`). -/
def mkOutObj (r : BRes) (address contract value : String) : OutObj :=
  { txhash := pickHash r
    height := r.height
    code := r.code
    gasWanted := r.gasWanted
    gasUsed := r.gasUsed
    timestamp := r.timestamp
    sender := address
    contract := contract
    valueLen := value.length }

/-- Whitespace test for the embedded `trim()`. -/
def isWsp (c : Char) : Bool := c = ' ' || c = '\t' || c = '\n' || c = '\r'

/-- Embedding of JavaScript `String.prototype.trim`: strip whitespace
from both ends. -/
def jsTrim (s : String) : String :=
  String.mk (((s.data.dropWhile isWsp).reverse.dropWhile isWsp).reverse)

/-- The body of `main()` in `send_set_value.js`, in the exception monad:
read and trim stdin (empty input throws), `JSON.parse` it (the external
parser is a parameter that may throw), require a non-empty string
`value`, load the key (external, may throw), broadcast (external, may
throw), and return the success document.  Any `Except.error` is what
the promise rejection carries to the catch handler. -/
def workerMain (stdin : String) (parse : String → Except String InputObj)
    (keyLoad : Except String String) (bcast : String → Except String BRes)
    (contract : String) : Except String OutDoc :=
  let s := jsTrim stdin
  if s = "" then Except.error ("stdin is empty (expected JSON)")
  else
    match parse s with
    | Except.error e => Except.error e
    | Except.ok input =>
      match input.value with
      | some (JVal.str v) =>
        if v = "" then Except.error ("input.value must be non-empty string")
        else
          let memo := (input.memo).getD ("set_value from python")
          match keyLoad with
          | Except.error e => Except.error e
          | Except.ok address =>
            match bcast memo with
            | Except.error e => Except.error e
            | Except.ok r => Except.ok (OutDoc.okDoc (mkOutObj r address contract v))
      | _ => Except.error ("input.value must be non-empty string")

/-- One whole worker invocation: the module-level environment check
(missing `CONTRACT`/`MNEMONIC` throws before `main()` is entered, so
nothing is written), then `main()` with its catch handler, which
writes `{ok:false, error}` to stdout and exits with status 1; the
success path writes the success document and exits 0.  Returns the
emitted document (if any) and the process exit status. -/
def workerRun (contract mnemonic stdin : String)
    (parse : String → Except String InputObj)
    (keyLoad : Except String String)
    (bcast : String → Except String BRes) : Option OutDoc × Nat :=
  if contract = "" || mnemonic = "" then (none, 1)
  else
    match workerMain stdin parse keyLoad bcast contract with
    | Except.ok d => (some d, 0)
    | Except.error e => (some (OutDoc.failDoc e), 1)

/-- A parser that always fails, as `JSON.parse` does on malformed
input. -/
def exParse : String → Except String InputObj :=
  fun _ => Except.error ("Unexpected end of JSON input")

/-- A key loader that succeeds with a fixed address. -/
def exKey : Except String String := Except.ok ("inj1sender")

/-- A broadcast that succeeds with a response carrying a hash. -/
def exBcast : String → Except String BRes :=
  fun _ => Except.ok (BRes.mk (some ("HASH")) none none none none none none)

/-- C2 counterexample.  With credentials present and empty stdin, the
worker does not exit silently: the catch handler emits the
`{ok:false, error}` document and then exits with status 1, refuting
the claim that empty or malformed input exits before emitting any
output document. -/
theorem worker_empty_stdin_emits_output :
    workerRun ("injcontract") ("seed words") ("") exParse exKey exBcast =
      (some (OutDoc.failDoc ("stdin is empty (expected JSON)")), 1) := rfl

/-- C2 (amended).  Empty or malformed (unparseable) stdin is a handled
failure: the worker emits an `{ok:false, error}` document and exits
with status 1, exactly like every other error thrown inside `main()`;
moreover, whenever the worker exits non-zero having emitted a
document, that document is an `{ok:false, ...}` document.  (An exit
with no output occurs only when `CONTRACT`/`MNEMONIC` are missing at
module load.) -/
theorem worker_bad_input_handled
    (contract mnemonic stdin : String)
    (parse : String → Except String InputObj)
    (keyLoad : Except String String)
    (bcast : String → Except String BRes)
    (hc : contract ≠ "") (hm : mnemonic ≠ "") :
    ((jsTrim stdin = "" ∨ (∃ e, parse (jsTrim stdin) = Except.error e)) →
      ∃ msg, workerRun contract mnemonic stdin parse keyLoad bcast =
        (some (OutDoc.failDoc msg), 1)) ∧
      (∀ d, (workerRun contract mnemonic stdin parse keyLoad bcast).1 = some d →
        (workerRun contract mnemonic stdin parse keyLoad bcast).2 ≠ 0 →
        ∃ e, d = OutDoc.failDoc e) := by
  have henv : (contract = "" || mnemonic = "") = false := by
    simp [hc, hm]
  constructor
  · intro hbad
    by_cases ht : jsTrim stdin = ""
    · refine ⟨"stdin is empty (expected JSON)", ?_⟩
      simp [workerRun, henv, workerMain, ht]
    · have hpe : ∃ e, parse (jsTrim stdin) = Except.error e := by
        rcases hbad with hbad | hbad
        · exact absurd hbad ht
        · exact hbad
      obtain ⟨e, he⟩ := hpe
      refine ⟨e, ?_⟩
      simp [workerRun, henv, workerMain, ht, he]
  · intro d hd hn
    unfold workerRun at hd hn
    rw [henv] at hd hn
    simp only [Bool.false_eq_true, if_false] at hd hn
    cases hres : workerMain stdin parse keyLoad bcast contract with
    | ok d2 => rw [hres] at hn; simp at hn
    | error e =>
      rw [hres] at hd
      simp at hd
      exact ⟨e, hd.symm⟩

/-- Witness for C2's amended theorem: empty stdin with credentials
present yields an emitted failure document and exit status 1. -/
theorem worker_bad_input_handled_witness :
    ∃ msg, workerRun ("injcontract") ("seed words") ("") exParse exKey exBcast =
      (some (OutDoc.failDoc msg), 1) :=
  (worker_bad_input_handled ("injcontract") ("seed words") ("") exParse exKey
    exBcast (by decide) (by decide)).1 (Or.inl (by decide))

/-- A broadcast response with no hash under either spelling. -/
def emptyBRes : BRes := BRes.mk none none none none none none none

/-- A parser returning a well-formed input object. -/
def exParseOk : String → Except String InputObj :=
  fun _ => Except.ok (InputObj.mk (some (JVal.str ("v"))) none)

/-- A broadcast that succeeds with a hashless response. -/
def exBcastEmpty : String → Except String BRes := fun _ => Except.ok emptyBRes

/-- C3 counterexample.  When the broadcast response carries neither a
`txhash` nor a `txHash` field, the worker still emits an `ok:true`
document — whose `txhash` field is the empty string, refuting the
claimed invariant that `ok=true` implies a non-empty `txHash`. -/
theorem ok_true_with_empty_txhash :
    workerRun ("injcontract") ("seed words") ("x") exParseOk exKey exBcastEmpty =
        (some (OutDoc.okDoc (mkOutObj emptyBRes ("inj1sender") ("injcontract") ("v"))), 0) ∧
      (OutDoc.okDoc (mkOutObj emptyBRes ("inj1sender") ("injcontract") ("v"))).okFlag
          = true ∧
      (mkOutObj emptyBRes ("inj1sender") ("injcontract") ("v")).txhash = "" :=
  ⟨rfl, rfl, rfl⟩

/-- C3 (amended).  An `ok:true` document's `txhash` is the coalescing
`res.txhash || res.txHash || ""` of the broadcast response, hence
non-empty whenever the response carries a non-empty hash under either
spelling; a response with no hash yields the empty string. -/
theorem ok_txhash_from_response (r : BRes) (address contract value : String)
    (hnz : ∃ s, (r.txhash = some s ∨ r.txHash = some s) ∧ s ≠ "") :
    (OutDoc.okDoc (mkOutObj r address contract value)).okFlag = true ∧
      (mkOutObj r address contract value).txhash = pickHash r ∧
      (mkOutObj r address contract value).txhash ≠ "" := by
  refine ⟨rfl, rfl, ?_⟩
  obtain ⟨s, hs, hne⟩ := hnz
  show pickHash r ≠ ""
  unfold pickHash
  rcases hs with hs | hs
  · rw [hs]
    simp only [Option.getD_some]
    rw [if_pos hne]
    exact hne
  · by_cases ha : (r.txhash).getD ("") ≠ ""
    · rw [if_pos ha]
      exact ha
    · rw [if_neg ha, hs]
      simp only [Option.getD_some]
      rw [if_pos hne]
      exact hne

/-- Witness for C3's amended theorem at a response carrying a hash
under the `txHash` spelling only. -/
theorem ok_txhash_from_response_witness :
    (OutDoc.okDoc (mkOutObj (BRes.mk none (some ("AB12")) none none none none none)
        ("inj1sender") ("injcontract") ("v"))).okFlag = true ∧
      (mkOutObj (BRes.mk none (some ("AB12")) none none none none none)
          ("inj1sender") ("injcontract") ("v")).txhash =
        pickHash (BRes.mk none (some ("AB12")) none none none none none) ∧
      (mkOutObj (BRes.mk none (some ("AB12")) none none none none none)
          ("inj1sender") ("injcontract") ("v")).txhash ≠ "" :=
  ok_txhash_from_response (BRes.mk none (some ("AB12")) none none none none none)
    ("inj1sender") ("injcontract") ("v") ⟨"AB12", Or.inr rfl, by decide⟩

/-- Observable events of the experiment `main()`: the header write,
the start of a trial, the broadcast attempts and backoff sleeps of the
trial's retry loop, the row append, and the optional inter-trial
pause. -/
inductive MEv where
  | headerWrite
  | trialStart (i : Nat)
  | bcastAttempt (i a : Nat)
  | backoff (i ms : Nat)
  | rowAppend (i : Nat) (line : String)
  | pause (i ms : Nat)
  deriving DecidableEq, Repr

/-- Lift a retry-loop event of trial `i` into the experiment trace. -/
def mapEv (i : Nat) : Ev → MEv
  | Ev.attempt a => MEv.bcastAttempt i a
  | Ev.sleep ms => MEv.backoff i ms

/-- The CSV header field names, in source order. -/
def headerFields : List String :=
  ["i", "value", "broadcast_ms", "txhash", "code", "height", "gasWanted",
    "gasUsed", "timestamp", "error"]

/-- The header line `header.join(",") + "\n"`. -/
def headerLine : String := String.intercalate (",") headerFields ++ "\n"

/-- A field read defensively from the possibly-null response:
`res?.f ?? ""` after stringification. -/
def optField (res : Option BRes) (f : BRes → Option String) : String :=
  match res with
  | none => ""
  | some r => (f r).getD ("")

/-- The hash column `res?.txhash || res?.txHash || ""`. -/
def hashField (res : Option BRes) : String :=
  match res with
  | none => ""
  | some r => pickHash r

/-- One data line: every field escaped with `esc` and joined with
commas, then a newline. -/
def csvLine (fields : List String) : String :=
  String.intercalate (",") (fields.map (fun f => esc (some f))) ++ "\n"

/-- The CSV line appended for trial `i`: the row object's fields in
header order, computed from the trial's retry-loop result.  `tsOf i`
is the `Date.now()` observation of trial `i` and `bmsOf i` the
formatted `broadcast_ms` reading. -/
def trialRowLine (outcomes : Nat → Nat → AttemptOutcome) (tsOf : Nat → Nat)
    (bmsOf : Nat → String) (i : Nat) : String :=
  let p := retryRun (outcomes i)
  csvLine [String.mk (decStr i), String.mk (mkValue (tsOf i) i), bmsOf i,
    hashField p.1, optField p.1 (fun r => r.code),
    optField p.1 (fun r => r.height), optField p.1 (fun r => r.gasWanted),
    optField p.1 (fun r => r.gasUsed), optField p.1 (fun r => r.timestamp),
    if p.1.isSome then "" else p.2.1]

/-- The events of trial `i`: trial start, the retry loop's attempts
and backoffs, the row append, and the inter-trial pause when
`SLEEP_MS > 0`. -/
def trialEvs (outcomes : Nat → Nat → AttemptOutcome) (tsOf : Nat → Nat)
    (bmsOf : Nat → String) (sleepMs : Nat) (i : Nat) : List MEv :=
  MEv.trialStart i ::
    ((retryEvents (outcomes i)).map (mapEv i) ++
      (MEv.rowAppend i (trialRowLine outcomes tsOf bmsOf i) ::
        (if 0 < sleepMs then [MEv.pause i sleepMs] else [])))

/-- The trial loop `for (i = 1; i <= N; i++)`, with the remaining trial
count as fuel: events of trial `i`, then the rest. -/
def loopFrom (outcomes : Nat → Nat → AttemptOutcome) (tsOf : Nat → Nat)
    (bmsOf : Nat → String) (sleepMs : Nat) : Nat → Nat → List MEv
  | _, 0 => []
  | i, rem + 1 =>
    trialEvs outcomes tsOf bmsOf sleepMs i ++
      loopFrom outcomes tsOf bmsOf sleepMs (i + 1) rem

/-- The whole experiment `main()` after setup: write the header first,
then run trials 1..N. -/
def mainEvents (N : Nat) (outcomes : Nat → Nat → AttemptOutcome)
    (tsOf : Nat → Nat) (bmsOf : Nat → String) (sleepMs : Nat) : List MEv :=
  MEv.headerWrite :: loopFrom outcomes tsOf bmsOf sleepMs 1 N

/-- Effect of one event on the output file, as a list of lines:
`writeFileSync` replaces the content with the header, `appendFileSync`
appends the row line, every other event leaves the file alone. -/
def fileStep (f : List String) : MEv → List String
  | MEv.headerWrite => [headerLine]
  | MEv.rowAppend _ l => f ++ [l]
  | _ => f

/-- File content (list of lines) after a sequence of events, starting
from no file. -/
def fileOf (evs : List MEv) : List String := evs.foldl fileStep []

/-- The trial indices of the row appends of a trace, in order. -/
def rowIdx (evs : List MEv) : List Nat :=
  evs.filterMap (fun e => match e with | MEv.rowAppend i _ => some i | _ => none)

/-- Events that touch neither write nor append. -/
def noFile (e : MEv) : Bool :=
  match e with
  | MEv.headerWrite => false
  | MEv.rowAppend _ _ => false
  | _ => true

theorem rowIdx_append (a b : List MEv) : rowIdx (a ++ b) = rowIdx a ++ rowIdx b :=
  List.filterMap_append a b _

theorem rowIdx_mapEv (i : Nat) (l : List Ev) : rowIdx (l.map (mapEv i)) = [] := by
  induction l with
  | nil => rfl
  | cons e t ih =>
    cases e <;> simpa [rowIdx, mapEv, List.filterMap_cons] using ih

theorem rowIdx_trial (outcomes : Nat → Nat → AttemptOutcome) (tsOf : Nat → Nat)
    (bmsOf : Nat → String) (sleepMs : Nat) (i : Nat) :
    rowIdx (trialEvs outcomes tsOf bmsOf sleepMs i) = [i] := by
  unfold trialEvs
  have hmap := rowIdx_mapEv i (retryEvents (outcomes i))
  unfold rowIdx at hmap ⊢
  rw [List.filterMap_cons, List.filterMap_append, hmap]
  by_cases hs : 0 < sleepMs <;> simp [hs, List.filterMap_cons]

theorem rowIdx_loop (outcomes : Nat → Nat → AttemptOutcome) (tsOf : Nat → Nat)
    (bmsOf : Nat → String) (sleepMs : Nat) :
    ∀ rem i, rowIdx (loopFrom outcomes tsOf bmsOf sleepMs i rem) =
      List.range' i rem := by
  intro rem
  induction rem with
  | zero => intro i; rfl
  | succ n ih =>
    intro i
    rw [loopFrom, rowIdx_append, rowIdx_trial, ih (i + 1), List.range'_succ i n 1]
    rfl

theorem loopFrom_split (outcomes : Nat → Nat → AttemptOutcome) (tsOf : Nat → Nat)
    (bmsOf : Nat → String) (sleepMs : Nat) :
    ∀ a b i, loopFrom outcomes tsOf bmsOf sleepMs i (a + b) =
      loopFrom outcomes tsOf bmsOf sleepMs i a ++
        loopFrom outcomes tsOf bmsOf sleepMs (i + a) b := by
  intro a
  induction a with
  | zero => intro b i; simp [loopFrom]
  | succ n ih =>
    intro b i
    have : n + 1 + b = (n + b) + 1 := by omega
    rw [this, loopFrom, loopFrom, ih b (i + 1), List.append_assoc]
    have h2 : i + 1 + n = i + (n + 1) := by omega
    rw [h2]

theorem trialStart_mem_trial (outcomes : Nat → Nat → AttemptOutcome)
    (tsOf : Nat → Nat) (bmsOf : Nat → String) (sleepMs : Nat) (i j : Nat)
    (h : MEv.trialStart j ∈ trialEvs outcomes tsOf bmsOf sleepMs i) : j = i := by
  unfold trialEvs at h
  rcases List.mem_cons.mp h with h | h
  · exact MEv.trialStart.inj h
  · rcases List.mem_append.mp h with h | h
    · obtain ⟨e, _, he⟩ := List.mem_map.mp h
      cases e <;> simp [mapEv] at he
    · rcases List.mem_cons.mp h with h | h
      · exact absurd h (by simp)
      · by_cases hs : 0 < sleepMs <;> simp [hs] at h

theorem trialStart_mem_loop (outcomes : Nat → Nat → AttemptOutcome)
    (tsOf : Nat → Nat) (bmsOf : Nat → String) (sleepMs : Nat) :
    ∀ rem i j, MEv.trialStart j ∈ loopFrom outcomes tsOf bmsOf sleepMs i rem →
      i ≤ j ∧ j < i + rem := by
  intro rem
  induction rem with
  | zero => intro i j h; simp [loopFrom] at h
  | succ n ih =>
    intro i j h
    rw [loopFrom] at h
    rcases List.mem_append.mp h with h | h
    · have := trialStart_mem_trial outcomes tsOf bmsOf sleepMs i j h
      omega
    · have := ih (i + 1) j h
      omega

theorem rowAppend_mem_trial (outcomes : Nat → Nat → AttemptOutcome)
    (tsOf : Nat → Nat) (bmsOf : Nat → String) (sleepMs : Nat) (i : Nat) :
    MEv.rowAppend i (trialRowLine outcomes tsOf bmsOf i) ∈
      trialEvs outcomes tsOf bmsOf sleepMs i := by
  unfold trialEvs
  exact List.mem_cons_of_mem _ (List.mem_append_right _ (List.mem_cons_self _ _))

theorem rowAppend_mem_loop (outcomes : Nat → Nat → AttemptOutcome)
    (tsOf : Nat → Nat) (bmsOf : Nat → String) (sleepMs : Nat) :
    ∀ rem i j, i ≤ j → j < i + rem →
      MEv.rowAppend j (trialRowLine outcomes tsOf bmsOf j) ∈
        loopFrom outcomes tsOf bmsOf sleepMs i rem := by
  intro rem
  induction rem with
  | zero => intro i j h1 h2; omega
  | succ n ih =>
    intro i j h1 h2
    rw [loopFrom]
    by_cases hij : j = i
    · subst hij
      exact List.mem_append_left _ (rowAppend_mem_trial outcomes tsOf bmsOf sleepMs j)
    · exact List.mem_append_right _ (ih (i + 1) j (by omega) (by omega))

/-- C4.  Every run appends exactly one row per trial, with trial
indices 1..N in order (the row appends of the trace are exactly
`range' 1 N`), and for every trial `i < N` the row append of trial `i`
occurs at a position strictly before every occurrence of the start of
trial `i + 1`. -/
theorem rows_per_trial_ordered (N : Nat) (outcomes : Nat → Nat → AttemptOutcome)
    (tsOf : Nat → Nat) (bmsOf : Nat → String) (sleepMs : Nat) :
    rowIdx (mainEvents N outcomes tsOf bmsOf sleepMs) = List.range' 1 N ∧
      (∀ i : Nat, 1 ≤ i → i < N →
        ∃ j : Nat, (∃ l : String, (mainEvents N outcomes tsOf bmsOf sleepMs)[j]? =
            some (MEv.rowAppend i l)) ∧
          ∀ k : Nat, (mainEvents N outcomes tsOf bmsOf sleepMs)[k]? =
              some (MEv.trialStart (i + 1)) → j < k) := by
  constructor
  · unfold mainEvents
    unfold rowIdx
    rw [List.filterMap_cons]
    exact rowIdx_loop outcomes tsOf bmsOf sleepMs N 1
  · intro i h1 h2
    have hsplit : mainEvents N outcomes tsOf bmsOf sleepMs =
        (MEv.headerWrite :: loopFrom outcomes tsOf bmsOf sleepMs 1 i) ++
          loopFrom outcomes tsOf bmsOf sleepMs (1 + i) (N - i) := by
      unfold mainEvents
      rw [show N = i + (N - i) by omega,
        loopFrom_split outcomes tsOf bmsOf sleepMs i (N - i) 1]
      simp [List.cons_append]
    set A := MEv.headerWrite :: loopFrom outcomes tsOf bmsOf sleepMs 1 i with hA
    set B := loopFrom outcomes tsOf bmsOf sleepMs (1 + i) (N - i) with hB
    have hmemA : MEv.rowAppend i (trialRowLine outcomes tsOf bmsOf i) ∈ A := by
      rw [hA]
      exact List.mem_cons_of_mem _
        (rowAppend_mem_loop outcomes tsOf bmsOf sleepMs i 1 i h1 (by omega))
    obtain ⟨j, hj, hjA⟩ := List.mem_iff_getElem.mp hmemA
    refine ⟨j, ⟨trialRowLine outcomes tsOf bmsOf i, ?_⟩, ?_⟩
    · rw [hsplit]
      rw [List.getElem?_append_left hj]
      rw [List.getElem?_eq_getElem hj, hjA]
    · intro k hk
      by_contra hle
      push_neg at hle
      have hkA : k < A.length := by omega
      rw [hsplit, List.getElem?_append_left hkA] at hk
      have hmem : MEv.trialStart (i + 1) ∈ A :=
        List.mem_iff_getElem?.mpr ⟨k, hk⟩
      rw [hA] at hmem
      rcases List.mem_cons.mp hmem with hmem | hmem
      · exact absurd hmem (by simp)
      · have := trialStart_mem_loop outcomes tsOf bmsOf sleepMs i 1 (i + 1) hmem
        omega

/-- Witness for C4 at a 2-trial run with failing broadcasts: trial 1's
row append precedes every start of trial 2. -/
theorem rows_per_trial_ordered_witness :
    ∃ j : Nat, (∃ l : String,
        (mainEvents 2 (fun _ => failAll) (fun _ => 0) (fun _ => ("1.000")) 0)[j]? =
          some (MEv.rowAppend 1 l)) ∧
      ∀ k : Nat,
        (mainEvents 2 (fun _ => failAll) (fun _ => 0) (fun _ => ("1.000")) 0)[k]? =
          some (MEv.trialStart (1 + 1)) → j < k :=
  (rows_per_trial_ordered 2 (fun _ => failAll) (fun _ => 0)
    (fun _ => ("1.000")) 0).2 1 (by decide) (by decide)

theorem foldl_noFile (l : List MEv) :
    ∀ F, (∀ e, e ∈ l → noFile e = true) → l.foldl fileStep F = F := by
  induction l with
  | nil => intro F _; rfl
  | cons e t ih =>
    intro F h
    have he := h e (List.mem_cons_self e t)
    have hstep : fileStep F e = F := by
      cases e <;> simp [noFile] at he ⊢ <;> rfl
    rw [List.foldl_cons, hstep]
    exact ih F (fun x hx => h x (List.mem_cons_of_mem e hx))

theorem foldl_trial_prefix (P S : List MEv) (i : Nat) (line : String)
    (hP : ∀ e, e ∈ P → noFile e = true) (hS : ∀ e, e ∈ S → noFile e = true) :
    ∀ F k, ((P ++ MEv.rowAppend i line :: S).take k).foldl fileStep F = F ∨
      ((P ++ MEv.rowAppend i line :: S).take k).foldl fileStep F = F ++ [line] := by
  intro F k
  rw [List.take_append_eq_append_take, List.foldl_append]
  have hPF : (P.take k).foldl fileStep F = F :=
    foldl_noFile (P.take k) F (fun e he => hP e (List.mem_of_mem_take he))
  rw [hPF]
  cases hm : k - P.length with
  | zero => left; rfl
  | succ m =>
    right
    rw [List.take_succ_cons, List.foldl_cons]
    have hstep : fileStep F (MEv.rowAppend i line) = F ++ [line] := rfl
    rw [hstep]
    exact foldl_noFile (S.take m) (F ++ [line])
      (fun e he => hS e (List.mem_of_mem_take he))

theorem foldl_trial_full (P S : List MEv) (i : Nat) (line : String)
    (hP : ∀ e, e ∈ P → noFile e = true) (hS : ∀ e, e ∈ S → noFile e = true)
    (F : List String) :
    (P ++ MEv.rowAppend i line :: S).foldl fileStep F = F ++ [line] := by
  rw [List.foldl_append, foldl_noFile P F hP, List.foldl_cons]
  exact foldl_noFile S (F ++ [line]) hS

theorem trialEvs_shape (outcomes : Nat → Nat → AttemptOutcome) (tsOf : Nat → Nat)
    (bmsOf : Nat → String) (sleepMs : Nat) (i : Nat) :
    trialEvs outcomes tsOf bmsOf sleepMs i =
      (MEv.trialStart i :: (retryEvents (outcomes i)).map (mapEv i)) ++
        MEv.rowAppend i (trialRowLine outcomes tsOf bmsOf i) ::
          (if 0 < sleepMs then [MEv.pause i sleepMs] else []) := by
  unfold trialEvs
  rw [List.cons_append]

theorem trial_prefix_noFile (outcomes : Nat → Nat → AttemptOutcome) (i : Nat) :
    ∀ e, e ∈ MEv.trialStart i :: (retryEvents (outcomes i)).map (mapEv i) →
      noFile e = true := by
  intro e he
  rcases List.mem_cons.mp he with he | he
  · rw [he]; rfl
  · obtain ⟨x, _, hx⟩ := List.mem_map.mp he
    cases x <;> rw [← hx] <;> rfl

theorem trial_tail_noFile (sleepMs i : Nat) :
    ∀ e, e ∈ (if 0 < sleepMs then [MEv.pause i sleepMs] else []) →
      noFile e = true := by
  intro e he
  by_cases hs : 0 < sleepMs
  · rw [if_pos hs] at he
    rcases List.mem_cons.mp he with he | he
    · rw [he]; rfl
    · simp at he
  · rw [if_neg hs] at he
    simp at he

theorem fileOf_take_loop (outcomes : Nat → Nat → AttemptOutcome) (tsOf : Nat → Nat)
    (bmsOf : Nat → String) (sleepMs : Nat) :
    ∀ rem i F k, ∃ m, m ≤ rem ∧
      ((loopFrom outcomes tsOf bmsOf sleepMs i rem).take k).foldl fileStep F =
        F ++ (List.range' i m).map (trialRowLine outcomes tsOf bmsOf) := by
  intro rem
  induction rem with
  | zero =>
    intro i F k
    exact ⟨0, Nat.le_refl 0, by simp [loopFrom]⟩
  | succ n ih =>
    intro i F k
    rw [loopFrom, List.take_append_eq_append_take, List.foldl_append]
    by_cases hk : k ≤ (trialEvs outcomes tsOf bmsOf sleepMs i).length
    · have hz : k - (trialEvs outcomes tsOf bmsOf sleepMs i).length = 0 := by omega
      rw [hz]
      simp only [List.take_zero, List.foldl_nil]
      rcases foldl_trial_prefix
          (MEv.trialStart i :: (retryEvents (outcomes i)).map (mapEv i))
          (if 0 < sleepMs then [MEv.pause i sleepMs] else []) i
          (trialRowLine outcomes tsOf bmsOf i)
          (trial_prefix_noFile outcomes i) (trial_tail_noFile sleepMs i) F k with
        h | h
      · rw [← trialEvs_shape] at h
        rw [h]
        exact ⟨0, by omega, by simp⟩
      · rw [← trialEvs_shape] at h
        rw [h]
        refine ⟨1, by omega, ?_⟩
        rfl
    · push_neg at hk
      rw [List.take_of_length_le (by omega)]
      have hfull : (trialEvs outcomes tsOf bmsOf sleepMs i).foldl fileStep F =
          F ++ [trialRowLine outcomes tsOf bmsOf i] := by
        rw [trialEvs_shape]
        exact foldl_trial_full _ _ i _ (trial_prefix_noFile outcomes i)
          (trial_tail_noFile sleepMs i) F
      rw [hfull]
      obtain ⟨m, hm, hres⟩ := ih (i + 1) (F ++ [trialRowLine outcomes tsOf bmsOf i])
        (k - (trialEvs outcomes tsOf bmsOf sleepMs i).length)
      refine ⟨m + 1, by omega, ?_⟩
      rw [hres, List.range'_succ i m 1]
      simp [List.append_assoc]

/-- C5.  The header write is the very first event of the run — before
any trial start, broadcast attempt or row append — and after any
prefix of the run's events (any interruption point) the output file
consists of the header line followed by the rows of the `m ≤ N` trials
completed so far, in order. -/
theorem header_written_first (N : Nat) (outcomes : Nat → Nat → AttemptOutcome)
    (tsOf : Nat → Nat) (bmsOf : Nat → String) (sleepMs : Nat) :
    (mainEvents N outcomes tsOf bmsOf sleepMs).head? = some MEv.headerWrite ∧
      (∀ k, ∃ m, m ≤ N ∧
        fileOf ((mainEvents N outcomes tsOf bmsOf sleepMs).take (k + 1)) =
          headerLine ::
            (List.range' 1 m).map (trialRowLine outcomes tsOf bmsOf)) := by
  constructor
  · rfl
  · intro k
    unfold mainEvents fileOf
    rw [List.take_succ_cons, List.foldl_cons]
    have hstep : fileStep [] MEv.headerWrite = [headerLine] := rfl
    rw [hstep]
    obtain ⟨m, hm, hres⟩ :=
      fileOf_take_loop outcomes tsOf bmsOf sleepMs N 1 [headerLine] k
    exact ⟨m, hm, by rw [hres]; rfl⟩

end INJEpaper
